import Mathlib

/-!
Shallow embedding of the chatbot repository (`chatbot.py`, `memory.py`).

Strings are modelled as `List Char`.  Python's `str.strip()` is `pyStrip`
(restricted to the ASCII whitespace characters, which is what all relevant
inputs contain), `str.lower()` is `lowerChars` (ASCII case folding, as in
Python for ASCII text), and the regular expressions of `chatbot.py` are
translated into structurally recursive character scanners.

The sqlite `facts` table is modelled as an association list of
(question, answer) pairs; `INSERT OR REPLACE` removes any row with the same
primary key and appends the fresh row, `DELETE ... WHERE question = ?`
filters rows with that exact key, and `SELECT` scans rows in order.
The external fuzzy scorer `rapidfuzz.fuzz.ratio` is an abstract parameter
`score : List Char → List Char → Nat` of the lookup, as the spec treats it
(a 0–100 scorer applied to the lowercased strings).
-/

/-- ASCII whitespace, the characters matched by Python's `str.strip()` and
by `\s` in the regexes of `chatbot.py` (on ASCII text). -/
def isSpaceC (c : Char) : Bool :=
  c == ' ' || c == '\t' || c == '\n' || c == '\r' || c == '\x0b' || c == '\x0c'

/-- The sentence-terminating marks of `re.search(r'[.?!]', ...)`. -/
def isTermMark (c : Char) : Bool :=
  c == '.' || c == '?' || c == '!'

/-- The character class of `re.sub(r'^[\s.;,:-]+', '', detail)`. -/
def isLeadJunk (c : Char) : Bool :=
  isSpaceC c || c == '.' || c == ';' || c == ',' || c == ':' || c == '-'

/-- ASCII lower-casing of one character (Python `str.lower()` on ASCII). -/
def lowerC (c : Char) : Char :=
  if 'A' ≤ c ∧ c ≤ 'Z' then Char.ofNat (c.toNat + 32) else c

/-- Python `str.lower()` on ASCII text. -/
def lowerChars (s : List Char) : List Char :=
  s.map lowerC

/-- Python `str.lstrip()`. -/
def lstrip (s : List Char) : List Char :=
  s.dropWhile isSpaceC

/-- Python `str.rstrip()`. -/
def rstrip (s : List Char) : List Char :=
  (s.reverse.dropWhile isSpaceC).reverse

/-- Python `str.strip()`. -/
def pyStrip (s : List Char) : List Char :=
  rstrip (lstrip s)

/-- `re.search(r'[.?!]', s)`: `match.end` of the first match, i.e. one past
the position of the first sentence-terminating mark, if any. -/
def findTermEnd : List Char → Option Nat
  | [] => none
  | c :: rest => if isTermMark c then some 1 else (findTermEnd rest).map (fun e => e + 1)

/-- `chatbot.py` lines 59–72: split an answer into the short first sentence
and the detail remainder. -/
def split_answer (s : List Char) : List Char × List Char :=
  if s = [] then ([], [])
  else
    match findTermEnd s with
    | none => (s, [])
    | some e => (pyStrip (s.take e), (pyStrip (s.drop e)).dropWhile isLeadJunk)

/-- `startsWithL p s` : `p` is a leading block of `s` (Python `str.startswith`). -/
def startsWithL : List Char → List Char → Bool
  | [], _ => true
  | _ :: _, [] => false
  | a :: p, b :: s => a == b && startsWithL p s

/-- `hasSub w s` : `w` occurs contiguously in `s` (Python `w in s`). -/
def hasSub (w : List Char) : List Char → Bool
  | [] => w.isEmpty
  | c :: rest => startsWithL w (c :: rest) || hasSub w rest

/-- The `yes_keywords` list of `wants_more_details`. -/
def yes_keywords : List (List Char) :=
  ["yes".toList, "sure".toList, "more".toList, "tell me".toList, "explain".toList,
   "detail".toList, "please".toList, "yeah".toList, "yep".toList, "ok".toList,
   "okay".toList, "go on".toList, "elaborate".toList]

/-- The `no_keywords` list of `wants_stop_details`. -/
def no_keywords : List (List Char) :=
  ["no".toList, "nah".toList, "nope".toList, "not now".toList, "thanks".toList,
   "enough".toList, "that’s enough".toList, "stop".toList, "quit".toList,
   "done".toList, "fine".toList, "ok".toList, "okay".toList]

/-- `chatbot.py` lines 74–81. -/
def wants_more_details (input : List Char) : Bool :=
  yes_keywords.any (fun w => hasSub w (lowerChars input))

/-- `chatbot.py` lines 83–90. -/
def wants_stop_details (input : List Char) : Bool :=
  no_keywords.any (fun w => hasSub w (lowerChars input))

/-- Whether the most recently scanned character (head of the reversed
accumulator) is a sentence-terminating mark: the lookbehind of
`re.split(r'(?<=[.!?]) +', text)`. -/
def isAccMark : List Char → Bool
  | a :: _ => isTermMark a
  | [] => false

/-- Scanner implementing `re.split(r'(?<=[.!?]) +', text)`: a maximal run of
spaces immediately preceded by a terminating mark separates two pieces.  The
`skip` flag is set right after a separator so the rest of the (maximal) run
of spaces is consumed; the accumulator holds the current piece reversed. -/
def sentSplitAux : Bool → List Char → List Char → List (List Char)
  | _, [], acc => [acc.reverse]
  | skip, c :: rest, acc =>
    if skip && c == ' ' then sentSplitAux true rest acc
    else if isAccMark acc && c == ' ' then acc.reverse :: sentSplitAux true rest []
    else sentSplitAux false rest (c :: acc)

/-- `re.split(r'(?<=[.!?]) +', text)`. -/
def splitSentences (text : List Char) : List (List Char) :=
  sentSplitAux false text []

/-- The sentence loop of `chunk_text` (`chatbot.py` lines 101–116), with the
accumulated chunk list and the current chunk as explicit state. -/
def chunkLoop (maxLength : Nat) : List (List Char) → List (List Char) → List Char → List (List Char)
  | [], chunks, cur => if cur = [] then chunks else chunks ++ [cur]
  | raw :: rest, chunks, cur =>
    let s := pyStrip raw
    if s = [] then chunkLoop maxLength rest chunks cur
    else if cur.length + s.length + 1 ≤ maxLength then
      chunkLoop maxLength rest chunks (if cur = [] then s else cur ++ ' ' :: s)
    else
      chunkLoop maxLength rest (chunks ++ [cur]) s

/-- `chatbot.py` lines 92–118. -/
def chunk_text (text : List Char) (maxLength : Nat) : List (List Char) :=
  if text = [] then [] else chunkLoop maxLength (splitSentences text) [] []

/-- The same greedy packing loop on sentences that are already stripped and
non-empty (the shape `chunkLoop` reduces to after cleaning its input). -/
def packAux (maxLength : Nat) : List (List Char) → List (List Char) → List Char → List (List Char)
  | [], chunks, cur => if cur = [] then chunks else chunks ++ [cur]
  | s :: rest, chunks, cur =>
    if cur.length + s.length + 1 ≤ maxLength then
      packAux maxLength rest chunks (if cur = [] then s else cur ++ ' ' :: s)
    else
      packAux maxLength rest (chunks ++ [cur]) s

/-- Join fragments with single spaces, the way `chunk_text` builds a chunk. -/
def joinSp : List (List Char) → List Char
  | [] => []
  | [s] => s
  | s :: rest => s ++ ' ' :: joinSp rest

/-- The non-empty stripped sentences of a text: what the loop of
`chunk_text` actually packs. -/
def sentencesOf (text : List Char) : List (List Char) :=
  ((splitSentences text).map pyStrip).filter (fun s => !s.isEmpty)

/-- No sentence-terminating mark immediately followed by a space anywhere in
the fragment (so `splitSentences` does not cut inside it). -/
def noMS : List Char → Bool
  | a :: b :: t => !(isTermMark a && b == ' ') && noMS (b :: t)
  | _ => true

/-- The fragment ends with a sentence-terminating mark. -/
def endsMarkB (s : List Char) : Bool :=
  match s.getLast? with
  | some c => isTermMark c
  | none => false

/-- A well-formed sentence as produced by the cleaning in `chunk_text`:
non-empty, stripped, and with no internal sentence boundary. -/
def GoodS (s : List Char) : Prop :=
  s ≠ [] ∧ pyStrip s = s ∧ noMS s = true

/-- The dialog state of the main loop: `last_answer_detail_chunks` and
`last_answer_index` (`chatbot.py` lines 142–143). -/
structure Session where
  chunks : List (List Char)
  index : Nat
deriving DecidableEq

/-- What a session-handling turn of the main loop does. -/
inductive TurnOut
  | revealed (chunk : List Char) (askMore : Bool)
  | cleared
  | stopped
  | fallthrough
deriving DecidableEq

/-- One turn of the session fragment of the main loop
(`chatbot.py` lines 162–182): the `wants_more_details` branch, then the
`wants_stop_details` branch, else fall through to retrieval/generation. -/
def sessionTurn (s : Session) (input : List Char) : Session × TurnOut :=
  if s.chunks ≠ [] ∧ wants_more_details input = true then
    if s.index < s.chunks.length then
      let out := s.chunks.getD s.index []
      if s.index + 1 = s.chunks.length then (⟨[], 0⟩, TurnOut.revealed out false)
      else (⟨s.chunks, s.index + 1⟩, TurnOut.revealed out true)
    else (⟨[], 0⟩, TurnOut.cleared)
  else if s.chunks ≠ [] ∧ wants_stop_details input = true then
    (⟨[], 0⟩, TurnOut.stopped)
  else (s, TurnOut.fallthrough)

/-- The chunk a turn printed, if any. -/
def emitted : TurnOut → List (List Char)
  | TurnOut.revealed c _ => [c]
  | _ => []

/-- Run a sequence of user turns through the session fragment, collecting
the chunks revealed along the way. -/
def runTurns (s : Session) : List (List Char) → Session × List (List Char)
  | [] => (s, [])
  | inp :: rest =>
    let r := sessionTurn s inp
    let r2 := runTurns r.1 rest
    (r2.1, emitted r.2 ++ r2.2)

/-- The reveal index never exceeds the number of pending chunks. -/
def InvS (s : Session) : Prop :=
  s.index ≤ s.chunks.length

/-- sqlite `INSERT OR REPLACE`: drop any row with the same primary key,
append the new row. -/
def upsert (k v : List Char) (store : List (List Char × List Char)) :
    List (List Char × List Char) :=
  store.filter (fun p => !(p.1 == k)) ++ [(k, v)]

/-- `chatbot.py` lines 29–35: the key is the question text as given. -/
def save_memory (question answer : List Char) (store : List (List Char × List Char)) :
    List (List Char × List Char) :=
  upsert question answer store

/-- `memory.py` lines 15–20: the key is the lower-cased question. -/
def save_fact (question answer : List Char) (store : List (List Char × List Char)) :
    List (List Char × List Char) :=
  upsert (lowerChars question) answer store

/-- `memory.py` lines 22–28. -/
def get_fact (question : List Char) (store : List (List Char × List Char)) :
    Option (List Char) :=
  (store.find? (fun p => p.1 == lowerChars question)).map (fun p => p.2)

/-- `chatbot.py` lines 37–40. -/
def delete_memory (question : List Char) (store : List (List Char × List Char)) :
    List (List Char × List Char) :=
  store.filter (fun p => !(p.1 == question))

/-- All keys lower-cased and pairwise distinct: the store invariant
maintained by `save_fact`. -/
def StoreInv (store : List (List Char × List Char)) : Prop :=
  (∀ p ∈ store, lowerChars p.1 = p.1) ∧ store.Pairwise (fun p q => p.1 ≠ q.1)

/-- How the main loop classifies one raw line of user input
(`chatbot.py` lines 149–159): `exit`, `delete <question>`, or everything
else (session handling / retrieval / generation). -/
inductive Turn
  | exitCmd
  | deleteCmd (arg : List Char)
  | pipeline
deriving DecidableEq

/-- `chatbot.py` lines 149–159: strip the input, compare against `exit`,
then against the prefix `delete `; the delete argument is the stripped
remainder of the original (stripped) input after those 7 characters. -/
def dispatch (raw : List Char) : Turn :=
  let u := pyStrip raw
  if lowerChars u = "exit".toList then Turn.exitCmd
  else if startsWithL "delete ".toList (lowerChars u) then
    Turn.deleteCmd (pyStrip (u.drop 7))
  else Turn.pipeline

/-- `chatbot.py` lines 20–27: first row whose fuzzy score against the
lower-cased query exceeds 85, scanning in table order. -/
def search_memory (score : List Char → List Char → Nat)
    (store : List (List Char × List Char)) (input : List Char) :
    Option (List Char × List Char) :=
  store.find? (fun p => decide (85 < score (lowerChars input) (lowerChars p.1)))

/-- Which call the retrieval part of the main loop makes to the language
model on a turn (`chatbot.py` lines 184–201): a paraphrase of a stored
answer, or a fresh generation from the user's input. -/
inductive LlmCall
  | paraphraseOf (stored : List Char)
  | generateFrom (prompt : List Char)
deriving DecidableEq

/-- `chatbot.py` lines 184–201: on a search hit the truthiness test
`if stored_answer:` decides between paraphrasing the stored answer and
falling through to fresh generation from the user's input. -/
def retrievalStep (score : List Char → List Char → Nat)
    (store : List (List Char × List Char)) (input : List Char) : LlmCall :=
  match search_memory score store input with
  | some qa => if qa.2 = [] then LlmCall.generateFrom input else LlmCall.paraphraseOf qa.2
  | none => LlmCall.generateFrom input

/-- A concrete 0–100 scorer (exact match) used to instantiate the abstract
fuzzy scorer in closed statements. -/
def score0 (a b : List Char) : Nat :=
  if a = b then 100 else 0

/-! ### Character-level facts -/

theorem toNat_ofNat_valid {n : Nat} (h : n.isValidChar) : (Char.ofNat n).toNat = n := by
  rw [Char.ofNat, dif_pos h]
  rfl

theorem lowerC_eq_space {c : Char} (h : lowerC c = ' ') : c = ' ' := by
  unfold lowerC at h
  split_ifs at h with h1
  · exfalso
    have hz : c.toNat ≤ 90 := h1.2
    have ha : 65 ≤ c.toNat := h1.1
    have hv : (c.toNat + 32).isValidChar := Or.inl (by omega)
    have h2 := congrArg Char.toNat h
    rw [toNat_ofNat_valid hv] at h2
    have h3 : Char.toNat ' ' = 32 := rfl
    omega
  · exact h

theorem mark_not_space {c : Char} (h : isTermMark c = true) : isSpaceC c = false := by
  simp only [isTermMark, Bool.or_eq_true, beq_iff_eq] at h
  rcases h with (h | h) | h <;> subst h <;> decide

/-! ### Facts about Python strip -/

theorem rstrip_prefix_self (l : List Char) : rstrip l <+: l := by
  obtain ⟨u, hu⟩ := List.dropWhile_suffix (l := l.reverse) (p := isSpaceC)
  exact ⟨u.reverse, by rw [rstrip, ← List.reverse_append, hu, List.reverse_reverse]⟩

theorem lstrip_suffix (l : List Char) : lstrip l <:+ l :=
  List.dropWhile_suffix _

theorem dropWhile_head_not {p : Char → Bool} {l : List Char} {a : Char} {t : List Char}
    (h : l.dropWhile p = a :: t) : p a = false := by
  induction l with
  | nil => simp at h
  | cons c cs ih =>
    by_cases hc : p c = true
    · rw [List.dropWhile_cons_of_pos hc] at h
      exact ih h
    · rw [List.dropWhile_cons_of_neg hc] at h
      cases h
      simpa using hc

theorem pyStrip_head {s : List Char} {a : Char} {t : List Char}
    (h : pyStrip s = a :: t) : isSpaceC a = false := by
  obtain ⟨u, hu⟩ := rstrip_prefix_self (lstrip s)
  rw [pyStrip] at h
  rw [h] at hu
  have hu2 : s.dropWhile isSpaceC = a :: (t ++ u) := by simpa [lstrip] using hu.symm
  exact dropWhile_head_not hu2

theorem rstrip_eq_self_of_last {l : List Char} {a : Char}
    (hl : l.getLast? = some a) (ha : isSpaceC a = false) : rstrip l = l := by
  have hh : l.reverse.head? = some a := by rw [List.head?_reverse, hl]
  match hr : l.reverse with
  | [] => rw [rstrip, hr]; simpa using congrArg List.reverse hr
  | b :: bs =>
    rw [hr] at hh
    have hb : b = a := by simpa using hh
    rw [rstrip, hr, List.dropWhile_cons_of_neg (by rw [hb, ha]; simp), ← hr,
      List.reverse_reverse]

theorem pyStrip_getLast? {s : List Char} {a : Char} (h : (pyStrip s).getLast? = some a) :
    isSpaceC a = false := by
  rw [pyStrip, rstrip] at h
  rw [List.getLast?_reverse] at h
  match hr : ((lstrip s).reverse.dropWhile isSpaceC) with
  | [] => rw [hr] at h; simp at h
  | b :: bs =>
    rw [hr] at h
    have : b = a := by simpa using h
    exact this ▸ dropWhile_head_not hr

theorem pyStrip_idem (s : List Char) : pyStrip (pyStrip s) = pyStrip s := by
  have h1 : lstrip (pyStrip s) = pyStrip s := by
    match hp : pyStrip s with
    | [] => rfl
    | a :: t => exact List.dropWhile_cons_of_neg (by rw [pyStrip_head hp]; simp)
  rw [pyStrip, h1]
  match hp : (pyStrip s).getLast? with
  | some a => exact rstrip_eq_self_of_last hp (pyStrip_getLast? hp)
  | none =>
    have : pyStrip s = [] := by
      cases hps : pyStrip s with
      | nil => rfl
      | cons x xs => rw [hps] at hp; simp [List.getLast?_eq_none_iff] at hp
    rw [this]; rfl

theorem pyStrip_ne_nil {s : List Char} {c : Char} (hc : c ∈ s) (hns : isSpaceC c = false) :
    pyStrip s ≠ [] := by
  intro h
  rw [pyStrip, rstrip] at h
  have h2 : (lstrip s).reverse.dropWhile isSpaceC = [] := by
    have := congrArg List.reverse h
    simpa using this
  rw [List.dropWhile_eq_nil_iff] at h2
  have hmem : c ∈ lstrip s := by
    have := List.takeWhile_append_dropWhile (p := isSpaceC) (l := s)
    rw [← this] at hc
    rcases List.mem_append.mp hc with h3 | h3
    · exact absurd (List.mem_takeWhile_imp h3) (by simp [hns])
    · exact h3
  exact absurd (h2 c (by simpa using hmem)) (by simp [hns])

/-! ### `split_answer`: claims C1, C2, C3 -/

theorem findTermEnd_none {s : List Char} (h : ∀ c ∈ s, isTermMark c = false) :
    findTermEnd s = none := by
  induction s with
  | nil => rfl
  | cons c rest ih =>
    rw [findTermEnd, if_neg (by simp [h c (by simp)]), ih (fun x hx => h x (by simp [hx]))]
    rfl

theorem findTermEnd_decomp (pre : List Char) (c : Char) (post : List Char)
    (hpre : ∀ x ∈ pre, isTermMark x = false) (hc : isTermMark c = true) :
    findTermEnd (pre ++ c :: post) = some (pre.length + 1) := by
  induction pre with
  | nil => simp [findTermEnd, hc]
  | cons a pre' ih =>
    have ha : isTermMark a = false := hpre a (by simp)
    rw [List.cons_append, findTermEnd, if_neg (by simp [ha]),
      ih (fun x hx => hpre x (by simp [hx]))]
    rfl

theorem findTermEnd_mark_mem {s : List Char} {e : Nat} (h : findTermEnd s = some e) :
    ∃ c ∈ s.take e, isTermMark c = true := by
  induction s generalizing e with
  | nil => simp [findTermEnd] at h
  | cons c rest ih =>
    rw [findTermEnd] at h
    by_cases hc : isTermMark c = true
    · rw [if_pos hc] at h
      cases h
      exact ⟨c, by simp, hc⟩
    · rw [if_neg hc] at h
      match he : findTermEnd rest with
      | none => rw [he] at h; simp at h
      | some e' =>
        rw [he] at h
        simp only [Option.map_some'] at h
        obtain ⟨d, hd, hdm⟩ := ih he
        cases h
        exact ⟨d, by simp [List.take_succ_cons]; right; exact hd, hdm⟩

/-- Claim C1 as stated is false on the code: on an input with surrounding
whitespace and no terminating mark, `split_answer` returns the input
unchanged, not the input trimmed of surrounding whitespace. -/
theorem split_answer_no_mark_not_trimmed :
    (" hi ".toList ≠ [] ∧ (∀ c ∈ " hi ".toList, isTermMark c = false)) ∧
    split_answer (" hi ".toList) ≠ (pyStrip (" hi ".toList), ([] : List Char)) := by
  decide

/-- Claim C1, amended: for non-empty input containing no terminating mark,
`split_answer` returns the entire input unchanged together with the empty
string (so the trimmed form of the claim holds exactly when the input
carries no surrounding whitespace). -/
theorem split_answer_no_mark (s : List Char) (hne : s ≠ [])
    (h : ∀ c ∈ s, isTermMark c = false) :
    split_answer s = (s, []) := by
  rw [split_answer, if_neg hne, findTermEnd_none h]

theorem split_answer_no_mark_witness :
    ("hi".toList ≠ [] ∧ (∀ c ∈ "hi".toList, isTermMark c = false)) ∧
    split_answer ("hi".toList) = ("hi".toList, []) :=
  ⟨by decide, split_answer_no_mark ("hi".toList) (by decide) (by decide)⟩

/-- Claim C2: writing the input as `pre ++ c :: post` where `c` is the first
terminating mark (ending at position `pre.length + 1`), the short part is
`pre ++ [c]` trimmed of surrounding whitespace and the detail part is `post`
trimmed and then stripped of any leading run of whitespace or the characters
`.` `;` `,` `:` `-`; the empty input yields two empty strings; and
`split_answer "A. B! C?" = ("A.", "B! C?")`. -/
theorem split_answer_first_mark (pre : List Char) (c : Char) (post : List Char)
    (hpre : ∀ x ∈ pre, isTermMark x = false) (hc : isTermMark c = true) :
    split_answer (pre ++ c :: post) =
      (pyStrip (pre ++ [c]), (pyStrip post).dropWhile isLeadJunk) ∧
    split_answer [] = ([], []) ∧
    split_answer ("A. B! C?".toList) = ("A.".toList, "B! C?".toList) := by
  refine ⟨?_, rfl, by decide⟩
  rw [split_answer, if_neg (by simp), findTermEnd_decomp pre c post hpre hc]
  have ht : (pre ++ c :: post).take (pre.length + 1) = pre ++ [c] := by
    have : pre ++ c :: post = (pre ++ [c]) ++ post := by simp
    rw [this, List.take_left' (by simp)]
  have hd : (pre ++ c :: post).drop (pre.length + 1) = post := by
    have : pre ++ c :: post = (pre ++ [c]) ++ post := by simp
    rw [this, List.drop_left' (by simp)]
  show (pyStrip ((pre ++ c :: post).take (pre.length + 1)),
      (pyStrip ((pre ++ c :: post).drop (pre.length + 1))).dropWhile isLeadJunk) =
    (pyStrip (pre ++ [c]), (pyStrip post).dropWhile isLeadJunk)
  rw [ht, hd]

theorem split_answer_first_mark_witness :
    ((∀ x ∈ ['A'], isTermMark x = false) ∧ isTermMark '.' = true) ∧
    split_answer (['A'] ++ '.' :: " B! C?".toList) =
      (pyStrip (['A'] ++ ['.']), (pyStrip (" B! C?".toList)).dropWhile isLeadJunk) :=
  ⟨by decide, (split_answer_first_mark ['A'] '.' (" B! C?".toList) (by decide) (by decide)).1⟩

/-- Claim C3: on non-empty input the short component is non-empty. -/
theorem split_answer_short_ne_nil (s : List Char) (hne : s ≠ []) :
    (split_answer s).1 ≠ [] := by
  rw [split_answer, if_neg hne]
  match he : findTermEnd s with
  | none => exact hne
  | some e =>
    obtain ⟨c, hc, hcm⟩ := findTermEnd_mark_mem he
    exact pyStrip_ne_nil hc (mark_not_space hcm)

theorem split_answer_short_ne_nil_witness :
    "hi".toList ≠ [] ∧ (split_answer ("hi".toList)).1 ≠ [] :=
  ⟨by decide, split_answer_short_ne_nil ("hi".toList) (by decide)⟩

/-! ### The dialog session fragment: claims C6, C9 -/

theorem sessionTurn_inv (s : Session) (inp : List Char) (h : InvS s) :
    InvS (sessionTurn s inp).1 := by
  unfold InvS at *
  unfold sessionTurn
  split_ifs with h1 h2 h3 h4
  · simp
  · simpa using Nat.succ_le_of_lt h2
  · simp
  · simp
  · exact h

theorem runTurns_inv (l : List (List Char)) (s : Session) (h : InvS s) :
    InvS (runTurns s l).1 := by
  induction l generalizing s with
  | nil => exact h
  | cons inp rest ih => exact ih (sessionTurn s inp).1 (sessionTurn_inv s inp h)

theorem getD_lt {c : List (List Char)} {i : Nat} (h : i < c.length) :
    c.getD i [] = c.get ⟨i, h⟩ := by
  rw [List.getD_eq_getElem?_getD, List.getElem?_eq_getElem h]
  rfl

theorem runTurns_more (inputs : List (List Char)) :
    ∀ (c : List (List Char)) (i : Nat),
      (∀ inp ∈ inputs, wants_more_details inp = true) → inputs ≠ [] →
      i + inputs.length = c.length →
      runTurns ⟨c, i⟩ inputs = (⟨[], 0⟩, c.drop i) := by
  induction inputs with
  | nil => intro c i _ hne _; exact absurd rfl hne
  | cons inp rest ih =>
    intro c i hall _ hlen
    simp only [List.length_cons] at hlen
    have hi : i < c.length := by omega
    have hc : c ≠ [] := List.ne_nil_of_length_pos (by omega)
    have hm : wants_more_details inp = true := hall inp (by simp)
    have hstep : sessionTurn ⟨c, i⟩ inp =
        if i + 1 = c.length then (⟨[], 0⟩, TurnOut.revealed (c.getD i []) false)
        else (⟨c, i + 1⟩, TurnOut.revealed (c.getD i []) true) := by
      unfold sessionTurn
      rw [if_pos ⟨hc, hm⟩, if_pos hi]
    by_cases hend : i + 1 = c.length
    · have hrest : rest = [] := by
        have : rest.length = 0 := by omega
        exact List.eq_nil_of_length_eq_zero this
      subst hrest
      rw [runTurns, hstep, if_pos hend]
      show (⟨[], 0⟩, [c.getD i []]) = ((⟨[], 0⟩ : Session), c.drop i)
      rw [List.drop_eq_getElem_cons hi, List.drop_eq_nil_of_le (by omega), getD_lt hi]
      rfl
    · have hrest : rest ≠ [] := by
        intro h
        rw [h] at hlen
        simp at hlen
        omega
      rw [runTurns, hstep, if_neg hend]
      show ((runTurns ⟨c, i + 1⟩ rest).1,
        [c.getD i []] ++ (runTurns ⟨c, i + 1⟩ rest).2) = ((⟨[], 0⟩ : Session), c.drop i)
      rw [ih c (i + 1) (fun x hx => hall x (by simp [hx])) hrest (by omega)]
      rw [List.drop_eq_getElem_cons hi, getD_lt hi]
      rfl

/-- Claim C6: starting from a fresh session over a non-empty chunk list,
processing one `wantsMore` input per chunk reveals the chunks in order
exactly once and leaves the session idle, and along the way the reveal
index never exceeds the chunk count. -/
theorem session_reveals_all (c : List (List Char)) (inputs : List (List Char))
    (hc : c ≠ []) (hlen : inputs.length = c.length)
    (hall : ∀ inp ∈ inputs, wants_more_details inp = true) :
    runTurns ⟨c, 0⟩ inputs = (⟨[], 0⟩, c) ∧
    ∀ k, InvS (runTurns ⟨c, 0⟩ (inputs.take k)).1 := by
  constructor
  · have hne : inputs ≠ [] := by
      intro h
      rw [h] at hlen
      exact hc (List.eq_nil_of_length_eq_zero hlen.symm)
    simpa using runTurns_more inputs c 0 (by simpa using hall) hne (by simpa using hlen)
  · intro k
    exact runTurns_inv _ _ (Nat.zero_le _)

theorem session_reveals_all_witness :
    (["ab".toList] ≠ [] ∧ (["yes".toList] : List (List Char)).length = [["ab".toList]].head!.length ∧
      (∀ inp ∈ [("yes".toList)], wants_more_details inp = true)) ∧
    runTurns ⟨["ab".toList], 0⟩ ["yes".toList] = (⟨[], 0⟩, ["ab".toList]) :=
  ⟨by decide, (session_reveals_all ["ab".toList] ["yes".toList] (by decide) (by decide)
    (by decide)).1⟩

/-- Claim C9: when chunks are pending and the input is classified both as
`wantsMore` and as `wantsStop`, the reveal branch wins (the branch order of
the main loop checks `wants_more_details` first): the next chunk is emitted,
the cursor advances, and the stop transition is not taken. -/
theorem more_beats_stop (s : Session) (inp : List Char)
    (hc : s.chunks ≠ []) (hi : s.index < s.chunks.length)
    (hm : wants_more_details inp = true) (hs : wants_stop_details inp = true) :
    (∃ b, (sessionTurn s inp).2 = TurnOut.revealed (s.chunks.getD s.index []) b) ∧
    (sessionTurn s inp).2 ≠ TurnOut.stopped ∧
    ((sessionTurn s inp).1 = ⟨s.chunks, s.index + 1⟩ ∨
      (s.index + 1 = s.chunks.length ∧ (sessionTurn s inp).1 = ⟨[], 0⟩)) := by
  have hstep : sessionTurn s inp =
      if s.index + 1 = s.chunks.length then
        (⟨[], 0⟩, TurnOut.revealed (s.chunks.getD s.index []) false)
      else (⟨s.chunks, s.index + 1⟩, TurnOut.revealed (s.chunks.getD s.index []) true) := by
    unfold sessionTurn
    rw [if_pos ⟨hc, hm⟩, if_pos hi]
  by_cases hend : s.index + 1 = s.chunks.length
  · rw [hstep, if_pos hend]
    exact ⟨⟨false, rfl⟩, by simp, Or.inr ⟨hend, rfl⟩⟩
  · rw [hstep, if_neg hend]
    exact ⟨⟨true, rfl⟩, by simp, Or.inl rfl⟩

theorem more_beats_stop_witness :
    ((["a".toList, "b".toList] : List (List Char)) ≠ [] ∧
      wants_more_details ("ok".toList) = true ∧ wants_stop_details ("ok".toList) = true) ∧
    (∃ b, (sessionTurn ⟨["a".toList, "b".toList], 0⟩ ("ok".toList)).2 =
      TurnOut.revealed (["a".toList, "b".toList].getD 0 []) b) ∧
    (sessionTurn ⟨["a".toList, "b".toList], 0⟩ ("ok".toList)).2 ≠ TurnOut.stopped :=
  ⟨by decide,
    (more_beats_stop ⟨["a".toList, "b".toList], 0⟩ ("ok".toList) (by decide) (by decide)
      (by decide) (by decide)).1,
    (more_beats_stop ⟨["a".toList, "b".toList], 0⟩ ("ok".toList) (by decide) (by decide)
      (by decide) (by decide)).2.1⟩

/-! ### The fact store: claim C5 -/

theorem lowerC_idem (c : Char) : lowerC (lowerC c) = lowerC c := by
  by_cases h1 : 'A' ≤ c ∧ c ≤ 'Z'
  · have hd : lowerC c = Char.ofNat (c.toNat + 32) := by rw [lowerC, if_pos h1]
    rw [hd, lowerC, if_neg]
    intro hcon
    have hz : c.toNat ≤ 90 := h1.2
    have ha : 65 ≤ c.toNat := h1.1
    have hv : (c.toNat + 32).isValidChar := Or.inl (by omega)
    have h3 : (Char.ofNat (c.toNat + 32)).toNat = c.toNat + 32 := toNat_ofNat_valid hv
    have h4 : (Char.ofNat (c.toNat + 32)).toNat ≤ 90 := hcon.2
    omega
  · have hd : lowerC c = c := by rw [lowerC, if_neg h1]
    rw [hd, hd]

theorem lowerChars_idem (s : List Char) : lowerChars (lowerChars s) = lowerChars s := by
  simp [lowerChars, Function.comp, lowerC_idem]

theorem upsert_upsert (k a a2 : List Char) (store : List (List Char × List Char)) :
    upsert k a2 (upsert k a store) = upsert k a2 store := by
  unfold upsert
  rw [List.filter_append, List.filter_filter]
  simp

theorem filter_out_key_find? (k : List Char) (store : List (List Char × List Char)) :
    (store.filter (fun p => !(p.1 == k))).find? (fun p => p.1 == k) = none := by
  rw [List.find?_eq_none]
  intro x hx
  have hx2 := (List.mem_filter.mp hx).2
  simp only [Bool.not_eq_true'] at hx2
  simp [hx2]

theorem find?_upsert (k v : List Char) (store : List (List Char × List Char)) :
    (upsert k v store).find? (fun p => p.1 == k) = some (k, v) := by
  rw [upsert, List.find?_append, filter_out_key_find?]
  simp

theorem countP_upsert (k v : List Char) (store : List (List Char × List Char)) :
    (upsert k v store).countP (fun p => p.1 == k) = 1 := by
  rw [upsert, List.countP_append]
  have h0 : (store.filter (fun p => !(p.1 == k))).countP (fun p => p.1 == k) = 0 := by
    rw [List.countP_eq_zero]
    intro x hx
    have hx2 := (List.mem_filter.mp hx).2
    simp only [Bool.not_eq_true'] at hx2
    simp [hx2]
  rw [h0]
  simp [List.countP_cons]

/-- Claim C5 as stated is false on the code path of `chatbot.py`:
`save_memory` keys a fact by the exact question text, not by its lower-cased
form, so two saves that differ only in case leave two stored rows with the
same normalized key. -/
theorem save_memory_not_normalized :
    save_memory ("Hi".toList) ("x".toList) [] = [("Hi".toList, "x".toList)] ∧
    lowerChars ("Hi".toList) ≠ "Hi".toList ∧
    (save_memory ("hi".toList) ("y".toList)
        (save_memory ("Hi".toList) ("x".toList) [])).countP
      (fun p => lowerChars p.1 == "hi".toList) = 2 := by
  decide

/-- Claim C5, amended: `save_fact` of `memory.py` persists a fact keyed by
the lower-cased question text and, on a store whose keys are normalized and
pairwise distinct, keeps at most one row per normalized question; a second
save with the same key overwrites the prior answer with no history kept.
`save_memory` of `chatbot.py` persists keyed by the exact question text and
overwrites only on an exact key match. -/
theorem save_fact_normalized (q a a2 : List Char) (store : List (List Char × List Char))
    (hinv : StoreInv store) :
    StoreInv (save_fact q a store) ∧
    get_fact q (save_fact q a store) = some a ∧
    save_fact q a2 (save_fact q a store) = save_fact q a2 store ∧
    (save_fact q a store).countP (fun p => p.1 == lowerChars q) = 1 ∧
    save_memory q a2 (save_memory q a store) = save_memory q a2 store := by
  obtain ⟨hlow, hdist⟩ := hinv
  refine ⟨⟨?_, ?_⟩, ?_, upsert_upsert _ _ _ _, countP_upsert _ _ _, upsert_upsert _ _ _ _⟩
  · intro p hp
    rcases List.mem_append.mp hp with h | h
    · exact hlow p (List.mem_of_mem_filter h)
    · have hp2 : p = (lowerChars q, a) := by simpa using h
      rw [hp2]
      exact lowerChars_idem q
  · rw [save_fact, upsert, List.pairwise_append]
    refine ⟨List.Pairwise.filter _ hdist, by simp, ?_⟩
    intro p hp b hb
    have hb2 : b = (lowerChars q, a) := by simpa using hb
    have hne := (List.mem_filter.mp hp).2
    simp only [Bool.not_eq_true', beq_eq_false_iff_ne, ne_eq] at hne
    rw [hb2]
    exact hne
  · rw [get_fact, save_fact, find?_upsert]
    rfl

theorem save_fact_normalized_witness :
    StoreInv [] ∧
    get_fact ("Hi".toList) (save_fact ("Hi".toList) ("x".toList) []) = some ("x".toList) ∧
    save_fact ("Hi".toList) ("y".toList) (save_fact ("Hi".toList) ("x".toList) []) =
      save_fact ("Hi".toList) ("y".toList) [] :=
  ⟨⟨by simp, List.Pairwise.nil⟩,
    (save_fact_normalized ("Hi".toList) ("x".toList) ("y".toList) []
      ⟨by simp, List.Pairwise.nil⟩).2.1,
    (save_fact_normalized ("Hi".toList) ("x".toList) ("y".toList) []
      ⟨by simp, List.Pairwise.nil⟩).2.2.1⟩

/-! ### Memory retrieval: claim C7 -/

/-- Claim C7 as stated is false on the code: when the matched stored answer
is the empty string, `if stored_answer:` is falsy and the loop makes a fresh
generation call from the user's input even though the fuzzy lookup scored a
hit above the threshold. -/
theorem memory_hit_empty_answer_generates :
    (∃ p ∈ [("q".toList, ([] : List Char))],
      85 < score0 (lowerChars ("q".toList)) (lowerChars p.1)) ∧
    retrievalStep score0 [("q".toList, [])] ("q".toList) =
      LlmCall.generateFrom ("q".toList) := by
  decide

/-- Claim C7, amended: whenever some stored question scores above 85 against
the query (case-insensitively), `search_memory` returns the first such row,
and when that row's stored answer is non-empty the loop paraphrases the
stored answer and makes no fresh generation call from the user's question. -/
theorem memory_hit_no_generation (score : List Char → List Char → Nat)
    (store : List (List Char × List Char)) (input : List Char)
    (h : ∃ p ∈ store, 85 < score (lowerChars input) (lowerChars p.1)) :
    ∃ q a, search_memory score store input = some (q, a) ∧ (q, a) ∈ store ∧
      85 < score (lowerChars input) (lowerChars q) ∧
      (a ≠ [] → retrievalStep score store input = LlmCall.paraphraseOf a ∧
        ∀ prompt, retrievalStep score store input ≠ LlmCall.generateFrom prompt) := by
  have hsome : (store.find? (fun p =>
      decide (85 < score (lowerChars input) (lowerChars p.1)))).isSome := by
    rw [List.find?_isSome]
    obtain ⟨p, hp, hsc⟩ := h
    exact ⟨p, hp, by simpa using hsc⟩
  match hfind : store.find? (fun p =>
      decide (85 < score (lowerChars input) (lowerChars p.1))) with
  | none => rw [hfind] at hsome; simp at hsome
  | some qa =>
    refine ⟨qa.1, qa.2, by rw [search_memory, hfind], ?_, ?_, ?_⟩
    · exact List.mem_of_find?_eq_some hfind
    · have := List.find?_some hfind
      simpa using this
    · intro ha
      have hstep : retrievalStep score store input = LlmCall.paraphraseOf qa.2 := by
        rw [retrievalStep, show search_memory score store input = some qa by
          rw [search_memory, hfind]]
        simp [ha]
      exact ⟨hstep, fun prompt => by rw [hstep]; simp⟩

theorem memory_hit_no_generation_witness :
    (∃ p ∈ [("q".toList, "a".toList)],
      85 < score0 (lowerChars ("q".toList)) (lowerChars p.1)) ∧
    (∃ q a, search_memory score0 [("q".toList, "a".toList)] ("q".toList) = some (q, a) ∧
      (q, a) ∈ [("q".toList, "a".toList)] ∧
      85 < score0 (lowerChars ("q".toList)) (lowerChars q) ∧
      (a ≠ [] → retrievalStep score0 [("q".toList, "a".toList)] ("q".toList) =
          LlmCall.paraphraseOf a ∧
        ∀ prompt, retrievalStep score0 [("q".toList, "a".toList)] ("q".toList) ≠
          LlmCall.generateFrom prompt)) :=
  ⟨by decide, memory_hit_no_generation score0 [("q".toList, "a".toList)] ("q".toList)
    (by decide)⟩

/-! ### The delete command: claim C8 -/

theorem startsWithL_length {p s : List Char} (h : startsWithL p s = true) :
    p.length ≤ s.length := by
  induction p generalizing s with
  | nil => simp
  | cons a p' ih =>
    match s with
    | [] => simp [startsWithL] at h
    | b :: s' =>
      rw [startsWithL, Bool.and_eq_true] at h
      simpa using ih h.2

theorem startsWithL_eq_of_length {p s : List Char} (h : startsWithL p s = true)
    (hl : s.length = p.length) : s = p := by
  induction p generalizing s with
  | nil =>
    match s with
    | [] => rfl
    | b :: s' => simp at hl
  | cons a p' ih =>
    match s with
    | [] => simp [startsWithL] at h
    | b :: s' =>
      rw [startsWithL, Bool.and_eq_true] at h
      have hb : a = b := by simpa using h.1
      have hs2 : s' = p' := ih h.2 (by simpa using hl)
      rw [← hb, hs2]

theorem stripped_getLast {u : List Char} (hu : pyStrip u = u) (hne : u ≠ []) :
    ∃ a, u.getLast? = some a ∧ isSpaceC a = false := by
  match hl : u.getLast? with
  | none => exact absurd (List.getLast?_eq_none_iff.mp hl) hne
  | some a => exact ⟨a, rfl, pyStrip_getLast? (by rw [hu, hl])⟩

theorem getLast?_drop {u : List Char} {n : Nat} (h : u.drop n ≠ []) :
    (u.drop n).getLast? = u.getLast? := by
  obtain ⟨t, ht⟩ := List.drop_suffix n u
  conv_rhs => rw [← ht]
  rw [List.getLast?_append]
  match hl : (u.drop n).getLast? with
  | none => exact absurd (List.getLast?_eq_none_iff.mp hl) h
  | some a => rfl

/-- Claim C8 as stated is false on the code: a turn consisting of the bare
`delete` command with an empty argument is not recognized as a delete
command at all (the dispatch tests the 7-character prefix `delete `, and the
read loop strips the input first), so it is routed to the ordinary answer
pipeline rather than treated as a delete of the empty-string key. -/
theorem bare_delete_not_delete :
    dispatch ("delete".toList) ≠ Turn.deleteCmd [] ∧
    dispatch ("delete".toList) = Turn.pipeline ∧
    dispatch ("delete  ".toList) = Turn.pipeline := by
  decide

/-- Claim C8, amended: a `delete` turn with an empty argument is never
recognized as a delete command (the bare `delete` input is routed to the
ordinary pipeline, and any input recognized as a delete command has a
non-empty argument after trimming); `delete_memory` of an absent key leaves
the store unchanged, so the loop's state is unaffected. -/
theorem delete_empty_arg_impossible :
    dispatch ("delete".toList) = Turn.pipeline ∧
    (∀ raw arg, dispatch raw = Turn.deleteCmd arg → arg ≠ []) ∧
    (∀ q store, (∀ p ∈ store, p.1 ≠ q) → delete_memory q store = store) := by
  refine ⟨by decide, ?_, ?_⟩
  · intro raw arg hd
    simp only [dispatch] at hd
    split_ifs at hd with h1 h2
    have harg : arg = pyStrip ((pyStrip raw).drop 7) := by
      cases hd
      rfl
    have hu : pyStrip (pyStrip raw) = pyStrip raw := pyStrip_idem raw
    have hlen7 : 7 ≤ (pyStrip raw).length := by
      have := startsWithL_length h2
      simpa [lowerChars] using this
    have hune : pyStrip raw ≠ [] :=
      List.ne_nil_of_length_pos (by omega)
    obtain ⟨a, hla, hans⟩ := stripped_getLast hu hune
    have hlen8 : 8 ≤ (pyStrip raw).length := by
      by_contra hcon
      have h7 : (pyStrip raw).length = 7 := by omega
      have heq : lowerChars (pyStrip raw) = "delete ".toList :=
        startsWithL_eq_of_length h2 (by simp [lowerChars, h7])
      have hlast : (lowerChars (pyStrip raw)).getLast? = some ' ' := by
        rw [heq]
        decide
      rw [lowerChars, List.getLast?_map, hla] at hlast
      have : lowerC a = ' ' := by simpa using hlast
      have : a = ' ' := lowerC_eq_space this
      rw [this] at hans
      simp [isSpaceC] at hans
    have hdrop : (pyStrip raw).drop 7 ≠ [] := by
      apply List.ne_nil_of_length_pos
      rw [List.length_drop]
      omega
    have hld : ((pyStrip raw).drop 7).getLast? = some a := by
      rw [getLast?_drop hdrop, hla]
    have hmem : a ∈ (pyStrip raw).drop 7 := List.mem_of_getLast?_eq_some hld
    rw [harg]
    exact pyStrip_ne_nil hmem hans
  · intro q store hq
    rw [delete_memory, List.filter_eq_self]
    intro p hp
    simp [hq p hp]

theorem delete_empty_arg_impossible_witness :
    (dispatch ("delete x".toList) = Turn.deleteCmd ("x".toList) ∧
      "x".toList ≠ []) ∧
    ((∀ p ∈ [("a".toList, "b".toList)], p.1 ≠ "q".toList) ∧
      delete_memory ("q".toList) [("a".toList, "b".toList)] = [("a".toList, "b".toList)]) :=
  ⟨⟨by decide, delete_empty_arg_impossible.2.1 ("delete x".toList) ("x".toList) (by decide)⟩,
   ⟨by decide, delete_empty_arg_impossible.2.2 ("q".toList) [("a".toList, "b".toList)]
     (by decide)⟩⟩

/-! ### The chunker: claims C4, C10.  First, facts about `noMS`. -/

theorem noMS_cons {a : Char} {l : List Char} (h : noMS (a :: l) = true) : noMS l = true := by
  match l with
  | [] => rfl
  | b :: t =>
    rw [noMS, Bool.and_eq_true] at h
    exact h.2

theorem noMS_append_right {l r : List Char} (h : noMS (l ++ r) = true) : noMS r = true := by
  induction l with
  | nil => exact h
  | cons a l' ih => exact ih (noMS_cons h)

theorem noMS_append_left {l r : List Char} (h : noMS (l ++ r) = true) : noMS l = true := by
  induction l with
  | nil => rfl
  | cons a l' ih =>
    match l' with
    | [] => rfl
    | b :: t =>
      rw [List.cons_append, List.cons_append, noMS, Bool.and_eq_true] at h
      rw [noMS, Bool.and_eq_true]
      exact ⟨h.1, ih h.2⟩

theorem noMS_append_single {l : List Char} {c : Char} (h : noMS l = true)
    (hl : ∀ x, l.getLast? = some x → ¬(isTermMark x = true ∧ c = ' ')) :
    noMS (l ++ [c]) = true := by
  induction l with
  | nil => rfl
  | cons a l' ih =>
    match l' with
    | [] =>
      have hla := hl a rfl
      show (!(isTermMark a && c == ' ') && noMS [c]) = true
      rw [Bool.and_eq_true]
      refine ⟨?_, rfl⟩
      by_cases hm : isTermMark a = true
      · have hc : ¬(c = ' ') := fun hcc => hla ⟨hm, hcc⟩
        simp [hm, hc]
      · simp only [Bool.not_eq_true] at hm
        simp [hm]
    | b :: t =>
      have hsplit : (!(isTermMark a && b == ' ') && noMS (b :: t)) = true := h
      rw [Bool.and_eq_true] at hsplit
      show (!(isTermMark a && b == ' ') && noMS (b :: (t ++ [c]))) = true
      rw [Bool.and_eq_true]
      refine ⟨hsplit.1, ?_⟩
      exact ih hsplit.2 (fun x hx => hl x (by rw [List.getLast?_cons_cons]; exact hx))

theorem noMS_suffix {l r : List Char} (h : r <:+ l) (hn : noMS l = true) : noMS r = true := by
  obtain ⟨u, hu⟩ := h
  exact noMS_append_right (hu ▸ hn)

theorem noMS_prefix {l r : List Char} (h : r <+: l) (hn : noMS l = true) : noMS r = true := by
  obtain ⟨u, hu⟩ := h
  exact noMS_append_left (hu ▸ hn)

theorem noMS_pyStrip {s : List Char} (h : noMS s = true) : noMS (pyStrip s) = true :=
  noMS_prefix (rstrip_prefix_self (lstrip s)) (noMS_suffix (lstrip_suffix s) h)

/-! ### Facts about the sentence scanner -/

theorem sentSplitAux_ne_nil (cs : List Char) :
    ∀ (skip : Bool) (acc : List Char), sentSplitAux skip cs acc ≠ [] := by
  induction cs with
  | nil => intro skip acc; simp [sentSplitAux]
  | cons c rest ih =>
    intro skip acc
    rw [sentSplitAux]
    split_ifs with h1 h2
    · exact ih true acc
    · simp
    · exact ih false (c :: acc)

theorem isAccMark_reverse (s : List Char) : isAccMark s.reverse = endsMarkB s := by
  rw [endsMarkB]
  match hr : s.reverse with
  | [] =>
    have : s = [] := by simpa using congrArg List.reverse hr
    rw [this]
    rfl
  | m :: t =>
    have h1 : s.getLast? = some m := by
      rw [← List.head?_reverse, hr]
      rfl
    rw [h1]
    rfl

theorem sentSplitAux_noMS (cs : List Char) :
    ∀ (skip : Bool) (acc : List Char), noMS acc.reverse = true →
      ∀ p ∈ sentSplitAux skip cs acc, noMS p = true := by
  induction cs with
  | nil =>
    intro skip acc hacc p hp
    rw [sentSplitAux] at hp
    have : p = acc.reverse := by simpa using hp
    rw [this]
    exact hacc
  | cons c rest ih =>
    intro skip acc hacc p hp
    rw [sentSplitAux] at hp
    split_ifs at hp with h1 h2
    · exact ih true acc hacc p hp
    · rcases List.mem_cons.mp hp with h3 | h3
      · rw [h3]; exact hacc
      · exact ih true [] (by rfl) p h3
    · refine ih false (c :: acc) ?_ p hp
      rw [List.reverse_cons]
      refine noMS_append_single hacc ?_
      intro x hx hcon
      apply h2
      have hx2 : acc.head? = some x := by rw [← List.getLast?_reverse, hx]
      cases acc with
      | nil => simp at hx2
      | cons a t =>
        have hax : a = x := by simpa using hx2
        rw [Bool.and_eq_true]
        exact ⟨by rw [isAccMark, hax]; exact hcon.1, by simp [hcon.2]⟩

theorem sentSplitAux_dropLast_mark (cs : List Char) :
    ∀ (skip : Bool) (acc : List Char),
      ∀ p ∈ (sentSplitAux skip cs acc).dropLast, endsMarkB p = true := by
  induction cs with
  | nil => intro skip acc; simp [sentSplitAux]
  | cons c rest ih =>
    intro skip acc p hp
    rw [sentSplitAux] at hp
    split_ifs at hp with h1 h2
    · exact ih true acc p hp
    · rw [List.dropLast_cons_of_ne_nil (sentSplitAux_ne_nil _ _ _)] at hp
      rcases List.mem_cons.mp hp with h3 | h3
      · rw [h3, ← isAccMark_reverse, List.reverse_reverse]
        exact (Bool.and_eq_true _ _).mp h2 |>.1
      · exact ih true [] p h3
    · exact ih false (c :: acc) p hp

theorem sentSplitAux_consume (s : List Char) :
    ∀ (acc rest : List Char), noMS s = true →
      (∀ b t, s = b :: t → ¬(isAccMark acc = true ∧ b = ' ')) →
      sentSplitAux false (s ++ rest) acc = sentSplitAux false rest (s.reverse ++ acc) := by
  induction s with
  | nil => intro acc rest _ _; rfl
  | cons c s' ih =>
    intro acc rest hn hhead
    have hcond : (isAccMark acc && c == ' ') = false := by
      have := hhead c s' rfl
      by_cases h1 : isAccMark acc = true
      · have h2 : ¬(c = ' ') := fun hc => this ⟨h1, hc⟩
        simp [h1, h2]
      · simp only [Bool.not_eq_true] at h1
        simp [h1]
    rw [List.cons_append, sentSplitAux, if_neg (by simp), if_neg (by simp [hcond])]
    rw [ih (c :: acc) rest (noMS_cons hn) ?_]
    · rw [List.reverse_cons, List.append_assoc]
      rfl
    · intro b t hbt hcon
      have hpair : (!(isTermMark c && b == ' ') && noMS (b :: t)) = true := by
        rw [hbt] at hn
        exact hn
      rw [Bool.and_eq_true] at hpair
      have hc2 : isTermMark c = true := by
        have h3 : isAccMark (c :: acc) = isTermMark c := rfl
        rw [← h3]
        exact hcon.1
      rw [hc2, hcon.2] at hpair
      simpa using hpair.1

theorem sentSplitAux_split (acc rest : List Char) (h : isAccMark acc = true) :
    sentSplitAux false (' ' :: rest) acc =
      acc.reverse :: sentSplitAux true rest [] := by
  rw [sentSplitAux, if_neg (by simp), if_pos (by simp [h])]

theorem sentSplitAux_skip_exit (l : List Char) (acc : List Char)
    (h : ∀ b t, l = b :: t → (b == ' ') = false) :
    sentSplitAux true l acc = sentSplitAux false l acc := by
  match l with
  | [] => rfl
  | b :: t =>
    have hb := h b t rfl
    simp [sentSplitAux, hb]

theorem joinSp_cons_of_ne_nil {t : List (List Char)} (s : List Char) (h : t ≠ []) :
    joinSp (s :: t) = s ++ ' ' :: joinSp t := by
  match t with
  | [] => exact absurd rfl h
  | a :: t' => rfl

theorem joinSp_ne_nil {g : List (List Char)} (hg : g ≠ []) (hne : ∀ s ∈ g, s ≠ []) :
    joinSp g ≠ [] := by
  match g with
  | [s] => exact hne s (by simp)
  | s :: a :: t =>
    rw [joinSp_cons_of_ne_nil s (by simp)]
    simp

theorem joinSp_append_single {g : List (List Char)} (s : List Char) (hg : g ≠ []) :
    joinSp (g ++ [s]) = joinSp g ++ ' ' :: s := by
  induction g with
  | nil => exact absurd rfl hg
  | cons a g' ih =>
    rw [List.cons_append, joinSp_cons_of_ne_nil a (by simp)]
    match hg' : g' with
    | [] => rfl
    | b :: t =>
      rw [ih (by simp), joinSp_cons_of_ne_nil a (by simp), List.append_assoc]
      rfl

theorem stripped_head_not_space {s : List Char} {b : Char} {t : List Char}
    (hst : pyStrip s = s) (hs : s = b :: t) : isSpaceC b = false := by
  apply pyStrip_head (s := s)
  rw [hst, hs]

theorem splitSentences_joinSp (g : List (List Char)) (hg : g ≠ [])
    (hgood : ∀ s ∈ g, GoodS s) (hmark : ∀ s ∈ g.dropLast, endsMarkB s = true) :
    splitSentences (joinSp g) = g := by
  induction g with
  | nil => exact absurd rfl hg
  | cons s g' ih =>
    obtain ⟨hs_ne, hs_strip, hs_noMS⟩ := hgood s (by simp)
    cases g' with
    | nil =>
      show sentSplitAux false (joinSp [s]) [] = [s]
      have h1 : joinSp [s] = s ++ [] := by simp [joinSp]
      rw [h1, sentSplitAux_consume s [] [] hs_noMS
        (by intro b t _ hcon; simp [isAccMark] at hcon), sentSplitAux]
      simp
    | cons b2 t2 =>
      have hg'ne : (b2 :: t2 : List (List Char)) ≠ [] := by simp
      show sentSplitAux false (joinSp (s :: b2 :: t2)) [] = s :: b2 :: t2
      rw [joinSp_cons_of_ne_nil s hg'ne,
        sentSplitAux_consume s [] (' ' :: joinSp (b2 :: t2)) hs_noMS
          (by intro b t _ hcon; simp [isAccMark] at hcon)]
      have hsm : endsMarkB s = true := by
        apply hmark s
        rw [List.dropLast_cons_of_ne_nil hg'ne]
        simp
      have haccm : isAccMark (s.reverse ++ []) = true := by
        rw [List.append_nil, isAccMark_reverse]
        exact hsm
      rw [sentSplitAux_split (s.reverse ++ []) (joinSp (b2 :: t2)) haccm]
      have hhead : ∀ b t, joinSp (b2 :: t2) = b :: t → (b == ' ') = false := by
        intro b t hbt
        obtain ⟨hb_ne, hb_strip, _⟩ := hgood b2 (by simp)
        obtain ⟨c, cs, hb⟩ := List.exists_cons_of_ne_nil hb_ne
        have hshape : ∃ u, joinSp (b2 :: t2) = c :: u := by
          cases t2 with
          | nil => exact ⟨cs, by rw [hb]; rfl⟩
          | cons d t3 =>
            exact ⟨cs ++ ' ' :: joinSp (d :: t3), by
              rw [joinSp_cons_of_ne_nil b2 (by simp), hb]; rfl⟩
        obtain ⟨u, hu⟩ := hshape
        have hbc : b = c := by
          rw [hbt] at hu
          simpa using congrArg List.head? hu
        have hcsp : isSpaceC c = false := stripped_head_not_space hb_strip hb
        rw [hbc]
        by_cases hc : c = ' '
        · rw [hc] at hcsp; simp [isSpaceC] at hcsp
        · simp [hc]
      rw [sentSplitAux_skip_exit (joinSp (b2 :: t2)) [] hhead]
      have hrec : sentSplitAux false (joinSp (b2 :: t2)) [] = b2 :: t2 := by
        apply ih hg'ne
        · intro x hx
          exact hgood x (by simp [hx])
        · intro x hx
          apply hmark x
          rw [List.dropLast_cons_of_ne_nil hg'ne]
          simp [hx]
      rw [hrec]
      simp

theorem pyStrip_getLast_preserve {p : List Char} {m : Char}
    (h : p.getLast? = some m) (hm : isSpaceC m = false) :
    (pyStrip p).getLast? = some m := by
  have hmem : m ∈ p := List.mem_of_getLast?_eq_some h
  have hl_ne : lstrip p ≠ [] := by
    intro hl
    rw [lstrip, List.dropWhile_eq_nil_iff] at hl
    rw [hl m hmem] at hm
    simp at hm
  obtain ⟨u, hu⟩ := lstrip_suffix p
  have hlast : (lstrip p).getLast? = some m := by
    rw [← hu, List.getLast?_append] at h
    match h2 : (lstrip p).getLast? with
    | none => exact absurd (List.getLast?_eq_none_iff.mp h2) hl_ne
    | some y => rw [h2] at h; simpa using h
  rw [pyStrip, rstrip_eq_self_of_last hlast hm]
  exact hlast

theorem map_pyStrip_self {g : List (List Char)} (h : ∀ s ∈ g, pyStrip s = s) :
    g.map pyStrip = g := by
  induction g with
  | nil => rfl
  | cons a t ih =>
    rw [List.map_cons, h a (by simp), ih (fun s hs2 => h s (by simp [hs2]))]

theorem sentencesOf_joinSp (g : List (List Char)) (hgood : ∀ s ∈ g, GoodS s)
    (hmark : ∀ s ∈ g.dropLast, endsMarkB s = true) :
    sentencesOf (joinSp g) = g := by
  cases g with
  | nil => rfl
  | cons s g' =>
    rw [sentencesOf, splitSentences_joinSp (s :: g') (by simp) hgood hmark,
      map_pyStrip_self (fun x hx => (hgood x hx).2.1)]
    apply List.filter_eq_self.mpr
    intro x hx
    simpa [List.isEmpty_iff] using (hgood x hx).1

theorem sentencesOf_good (text : List Char) : ∀ s ∈ sentencesOf text, GoodS s := by
  intro s hs
  rw [sentencesOf] at hs
  have h1 := List.mem_filter.mp hs
  obtain ⟨p, hp, hps⟩ := List.mem_map.mp h1.1
  have hne : ¬(s = []) := by simpa [List.isEmpty_iff] using h1.2
  refine ⟨hne, ?_, ?_⟩
  · rw [← hps]
    exact pyStrip_idem p
  · rw [← hps]
    exact noMS_pyStrip (sentSplitAux_noMS text false [] (by rfl) p hp)

theorem clean_dropLast_mark (P : List (List Char))
    (hP : ∀ p ∈ P.dropLast, endsMarkB p = true) :
    ∀ s ∈ ((P.map pyStrip).filter (fun s => !s.isEmpty)).dropLast, endsMarkB s = true := by
  induction P with
  | nil => simp
  | cons p P' ih =>
    cases P' with
    | nil =>
      intro s hs
      exfalso
      have h0 : (List.filter (fun s => !s.isEmpty) (List.map pyStrip [p])).dropLast = [] := by
        apply List.eq_nil_of_length_eq_zero
        rw [List.length_dropLast]
        have h1 : (List.filter (fun s => !s.isEmpty) (List.map pyStrip [p])).length ≤ 1 := by
          have h2 := List.length_filter_le (fun s : List Char => !s.isEmpty)
            (List.map pyStrip [p])
          simpa using h2
        omega
      rw [h0] at hs
      simp at hs
    | cons q P'' =>
      have hpm : endsMarkB p = true := by
        apply hP p
        rw [List.dropLast_cons_of_ne_nil (by simp)]
        simp
      obtain ⟨m, hm_last, hm_mark⟩ : ∃ m, p.getLast? = some m ∧ isTermMark m = true := by
        rw [endsMarkB] at hpm
        match hgl : p.getLast? with
        | none => rw [hgl] at hpm; simp at hpm
        | some m => rw [hgl] at hpm; exact ⟨m, rfl, hpm⟩
      have hmsp : isSpaceC m = false := mark_not_space hm_mark
      have hsp_last : (pyStrip p).getLast? = some m := pyStrip_getLast_preserve hm_last hmsp
      have hsp_ne : pyStrip p ≠ [] := by
        intro hc
        rw [hc] at hsp_last
        simp at hsp_last
      have hsp_mark : endsMarkB (pyStrip p) = true := by
        rw [endsMarkB, hsp_last]
        exact hm_mark
      have hfilter : ((p :: q :: P'').map pyStrip).filter (fun s => !s.isEmpty) =
          pyStrip p :: ((q :: P'').map pyStrip).filter (fun s => !s.isEmpty) := by
        rw [List.map_cons, List.filter_cons_of_pos (by simpa [List.isEmpty_iff] using hsp_ne)]
      rw [hfilter]
      intro s hs
      match hC : ((q :: P'').map pyStrip).filter (fun s => !s.isEmpty) with
      | [] =>
        rw [hC] at hs
        simp at hs
      | c0 :: C0 =>
        rw [hC, List.dropLast_cons_of_ne_nil (by simp)] at hs
        rcases List.mem_cons.mp hs with h1 | h1
        · rw [h1]
          exact hsp_mark
        · refine ih ?_ s (by rw [hC]; exact h1)
          intro x hx
          apply hP x
          rw [List.dropLast_cons_of_ne_nil (by simp)]
          simp [hx]

theorem sentencesOf_dropLast_mark (text : List Char) :
    ∀ s ∈ (sentencesOf text).dropLast, endsMarkB s = true :=
  clean_dropLast_mark (splitSentences text) (sentSplitAux_dropLast_mark text false [])

theorem packAux_mem (maxLength : Nat) (S : List (List Char)) :
    ∀ (chunks : List (List Char)) (cur c : List Char),
      c ∈ packAux maxLength S chunks cur →
      c ∈ chunks ∨ c = cur ∨ c ∈ S ∨ c.length ≤ maxLength := by
  induction S with
  | nil =>
    intro chunks cur c hc
    rw [packAux] at hc
    split_ifs at hc with h
    · exact Or.inl hc
    · rcases List.mem_append.mp hc with h1 | h1
      · exact Or.inl h1
      · exact Or.inr (Or.inl (by simpa using h1))
  | cons s rest ih =>
    intro chunks cur c hc
    rw [packAux] at hc
    split_ifs at hc with h hcur
    · rcases ih chunks s c hc with h1 | h1 | h1 | h1
      · exact Or.inl h1
      · exact Or.inr (Or.inr (Or.inl (by simp [h1])))
      · exact Or.inr (Or.inr (Or.inl (by simp [h1])))
      · exact Or.inr (Or.inr (Or.inr h1))
    · rcases ih chunks (cur ++ ' ' :: s) c hc with h1 | h1 | h1 | h1
      · exact Or.inl h1
      · refine Or.inr (Or.inr (Or.inr ?_))
        rw [h1]
        simp only [List.length_append, List.length_cons]
        omega
      · exact Or.inr (Or.inr (Or.inl (by simp [h1])))
      · exact Or.inr (Or.inr (Or.inr h1))
    · rcases ih (chunks ++ [cur]) s c hc with h1 | h1 | h1 | h1
      · rcases List.mem_append.mp h1 with h2 | h2
        · exact Or.inl h2
        · exact Or.inr (Or.inl (by simpa using h2))
      · exact Or.inr (Or.inr (Or.inl (by simp [h1])))
      · exact Or.inr (Or.inr (Or.inl (by simp [h1])))
      · exact Or.inr (Or.inr (Or.inr h1))

theorem packAux_extends (maxLength : Nat) (S : List (List Char)) :
    ∀ (chunks : List (List Char)) (cur : List Char),
      ∃ t, packAux maxLength S chunks cur = chunks ++ t := by
  induction S with
  | nil =>
    intro chunks cur
    rw [packAux]
    split_ifs
    · exact ⟨[], by simp⟩
    · exact ⟨[cur], rfl⟩
  | cons s rest ih =>
    intro chunks cur
    rw [packAux]
    split_ifs
    · exact ih chunks s
    · exact ih chunks (cur ++ ' ' :: s)
    · obtain ⟨t, ht⟩ := ih (chunks ++ [cur]) s
      exact ⟨[cur] ++ t, by rw [ht, List.append_assoc]⟩

theorem mem_dropLast_mem {α : Type} {x : α} {l : List α} (h : x ∈ l.dropLast) : x ∈ l :=
  (List.dropLast_sublist l).subset h

theorem packAux_sentences (maxLength : Nat) (S : List (List Char)) :
    ∀ (g chunks : List (List Char)),
      (∀ s ∈ g ++ S, GoodS s) →
      (∀ s ∈ (g ++ S).dropLast, endsMarkB s = true) →
      ((packAux maxLength S chunks (joinSp g)).map sentencesOf).flatten =
        (chunks.map sentencesOf).flatten ++ (g ++ S) := by
  induction S with
  | nil =>
    intro g chunks hgood hmark
    rw [packAux]
    by_cases hg : g = []
    · subst hg
      simp [joinSp]
    · have hjne : joinSp g ≠ [] :=
        joinSp_ne_nil hg (fun s hs2 => (hgood s (by simpa using hs2)).1)
      have h5 := sentencesOf_joinSp g (fun s hs2 => hgood s (by simpa using hs2))
        (fun s hs2 => hmark s (by simpa using hs2))
      rw [if_neg hjne]
      simp [h5]
  | cons s rest ih =>
    intro g chunks hgood hmark
    have hSne : (s :: rest : List (List Char)) ≠ [] := by simp
    rw [packAux]
    by_cases h : (joinSp g).length + s.length + 1 ≤ maxLength
    · rw [if_pos h]
      have hcur : (if joinSp g = [] then s else joinSp g ++ ' ' :: s) = joinSp (g ++ [s]) := by
        by_cases hg : g = []
        · subst hg
          simp [joinSp]
        · have hjne : joinSp g ≠ [] :=
            joinSp_ne_nil hg (fun x hx => (hgood x (by simp [hx])).1)
          rw [if_neg hjne, joinSp_append_single s hg]
      have heq : (g ++ [s]) ++ rest = g ++ (s :: rest) := by simp
      rw [hcur, ih (g ++ [s]) chunks (by rw [heq]; exact hgood) (by rw [heq]; exact hmark),
        heq]
    · rw [if_neg h]
      have hgood_g : ∀ x ∈ g, GoodS x := fun x hx => hgood x (List.mem_append_left _ hx)
      have hmark_g : ∀ x ∈ g.dropLast, endsMarkB x = true := by
        intro x hx
        apply hmark
        rw [List.dropLast_append_of_ne_nil g hSne]
        exact List.mem_append_left _ (mem_dropLast_mem hx)
      have h5 : sentencesOf (joinSp g) = g := sentencesOf_joinSp g hgood_g hmark_g
      have h2 : ((packAux maxLength rest (chunks ++ [joinSp g]) s).map sentencesOf).flatten =
          ((chunks ++ [joinSp g]).map sentencesOf).flatten ++ ([s] ++ rest) := by
        have h3 : ∀ x ∈ [s] ++ rest, GoodS x := by
          intro x hx
          exact hgood x (List.mem_append_right _ (by simpa using hx))
        have h4 : ∀ x ∈ ([s] ++ rest).dropLast, endsMarkB x = true := by
          intro x hx
          apply hmark
          rw [List.dropLast_append_of_ne_nil g hSne]
          exact List.mem_append_right _ (by simpa using hx)
        exact ih [s] (chunks ++ [joinSp g]) h3 h4
      rw [h2, List.map_append, List.flatten_append]
      simp [h5, List.append_assoc]

theorem chunkLoop_eq_packAux (maxLength : Nat) (raws : List (List Char)) :
    ∀ (chunks : List (List Char)) (cur : List Char),
      chunkLoop maxLength raws chunks cur =
        packAux maxLength ((raws.map pyStrip).filter (fun s => !s.isEmpty)) chunks cur := by
  induction raws with
  | nil => intro chunks cur; rfl
  | cons raw rest ih =>
    intro chunks cur
    by_cases hs : pyStrip raw = []
    · rw [List.map_cons, List.filter_cons_of_neg (by simp [List.isEmpty_iff, hs])]
      simp only [chunkLoop]
      rw [if_pos hs]
      exact ih chunks cur
    · rw [List.map_cons, List.filter_cons_of_pos (by simp [List.isEmpty_iff, hs])]
      simp only [chunkLoop, packAux]
      rw [if_neg hs]
      by_cases hc : cur.length + (pyStrip raw).length + 1 ≤ maxLength
      · rw [if_pos hc, if_pos hc, ih]
      · rw [if_neg hc, if_neg hc, ih]

theorem chunk_text_eq_packAux (text : List Char) (maxLength : Nat) (htext : text ≠ []) :
    chunk_text text maxLength = packAux maxLength (sentencesOf text) [] [] := by
  rw [chunk_text, if_neg htext, chunkLoop_eq_packAux]
  rfl

/-- Claim C4: for every text and maximum length, re-splitting each returned
chunk into its non-empty stripped sentences and concatenating reproduces
exactly the original non-empty sentence sequence of the text (no sentence
dropped or duplicated), and every chunk longer than the maximum is a single
sentence of the text (so every chunk that is not an oversized single
sentence fits the bound). -/
theorem chunk_text_reconstructs (text : List Char) (maxLength : Nat) :
    ((chunk_text text maxLength).map sentencesOf).flatten = sentencesOf text ∧
    ∀ c ∈ chunk_text text maxLength, maxLength < c.length → c ∈ sentencesOf text := by
  by_cases htext : text = []
  · subst htext
    constructor
    · rfl
    · intro c hc
      rw [chunk_text] at hc
      simp at hc
  · rw [chunk_text_eq_packAux text maxLength htext]
    constructor
    · have h1 := packAux_sentences maxLength (sentencesOf text) [] []
        (by intro s hs2; exact sentencesOf_good text s (by simpa using hs2))
        (by intro s hs2; exact sentencesOf_dropLast_mark text s (by simpa using hs2))
      simpa using h1
    · intro c hc hlen
      rcases packAux_mem maxLength (sentencesOf text) [] [] c hc with h1 | h1 | h1 | h1
      · simp at h1
      · rw [h1] at hlen
        simp at hlen
      · exact h1
      · omega

theorem chunk_text_reconstructs_witness :
    ("abcdef".toList ∈ chunk_text ("abcdef".toList) 3 ∧ 3 < ("abcdef".toList).length) ∧
    "abcdef".toList ∈ sentencesOf ("abcdef".toList) :=
  ⟨by decide, (chunk_text_reconstructs ("abcdef".toList) 3).2 ("abcdef".toList)
    (by decide) (by decide)⟩

/-- Claim C10: whenever the first non-empty sentence of the text is on its
own longer than the maximum length minus one (so it cannot share a chunk
with the initially empty current chunk), `chunk_text` emits the empty
string as its first chunk, so not every returned chunk is a non-empty
concatenation of whole sentences. -/
theorem chunk_text_oversized_first_empty (text : List Char) (maxLength : Nat)
    (s : List Char) (rest : List (List Char))
    (hS : sentencesOf text = s :: rest) (hlen : maxLength < s.length + 1) :
    (chunk_text text maxLength).head? = some [] ∧ [] ∈ chunk_text text maxLength := by
  have htext : text ≠ [] := by
    intro h
    rw [h] at hS
    have h0 : sentencesOf ([] : List Char) = [] := rfl
    rw [h0] at hS
    exact List.cons_ne_nil s rest hS.symm
  rw [chunk_text_eq_packAux text maxLength htext, hS, packAux,
    if_neg (by simp only [List.length_nil]; omega)]
  obtain ⟨t, ht⟩ := packAux_extends maxLength rest ([] ++ [([] : List Char)]) s
  rw [ht]
  exact ⟨rfl, by simp⟩

theorem chunk_text_oversized_first_empty_witness :
    (sentencesOf ("abcdef".toList) = ["abcdef".toList] ∧
      3 < ("abcdef".toList).length + 1) ∧
    (chunk_text ("abcdef".toList) 3).head? = some [] :=
  ⟨by decide, (chunk_text_oversized_first_empty ("abcdef".toList) 3 ("abcdef".toList) []
    (by decide) (by decide)).1⟩
